import Mathlib

/-!
# The logging pipeline of `logger.go`

A shallow embedding of package `log` (`logger.go`): the severity levels, the
payload type `Data`, the `Encoder` capability, the unexported `logger` record
and its method `Log`.

Filters and encoders are Go values that may read and write program state, so
both are embedded as state transformers over an arbitrary state type `S`.
`Log` itself is embedded together with the ordered list of the actions it
performs (filter calls, the encoder call, the write to standard error), which
is what the properties below talk about.  Filters and the encoder are taken to
be non-nil and to return.
-/

namespace GoLog

/-! ## Data model -/

/-- Go `type Level int`: a priority or threshold. -/
abbrev Level := Int

/-- Constant `FatalLevel Level = iota`, the first of the block. -/
def FatalLevel : Level := 0

/-- Constant `ErrorLevel`, the second of the `iota` block. -/
def ErrorLevel : Level := 1

/-- Constant `InfoLevel`, the third of the `iota` block. -/
def InfoLevel : Level := 2

/-- Constant `TraceLevel`, the fourth of the `iota` block. -/
def TraceLevel : Level := 3

/-- Go `type Data map[string]interface{}`.  A Go map value is either the nil map
(`none`) or a finite mapping with unique string keys (`some m`, where `m` may
have no key at all).  `V` stands for the values an `interface{}` can hold. -/
abbrev Data (V : Type) := Option (Finmap (fun _ : String => V))

/-- The nil map, the value `data == nil` tests for. -/
def Data.nil {V : Type} : Data V := none

/-- Go's `data == nil` on a map value. -/
def Data.isNil {V : Type} (d : Data V) : Bool := d.isNone

/-- The non-nil map without keys, Go's `Data{}`. -/
def Data.empty {V : Type} : Data V := some ∅

/-- The map `d` with key `k` set to `v`; Go's `d[k] = v` on a non-nil map.  Go does not
allow the assignment on the nil map; here the nil map is handed back, and the sample
filters below only assign to non-nil maps. -/
def Data.set {V : Type} (d : Data V) (k : String) (v : V) : Data V :=
  d.map (fun m => m.insert k v)

/-- Go's `d[k]` with the comma-ok form: the value under `k`, if any.  Reading from
the nil map finds nothing. -/
def Data.get {V : Type} (d : Data V) (k : String) : Option V :=
  d.bind (fun m => m.lookup k)

/-- A non-nil value of Go's `error` interface, carried as the text that
`fmt` prints for it under the verb `%+v`. -/
structure Error where
  msg : String
deriving DecidableEq, Repr

/-- Go `type Encoder interface { Encode(interface{}) error }`.  `Log` only ever
passes a `Data` value.  The result `none` is the nil error.  The encoder may
read and change the program state `S`. -/
structure Encoder (S V : Type) where
  Encode : Data V → S → Option Error × S

/-- Modelled from the spec: the declaration of the type `Filter` is not in
logger.go.  The spec gives its signature `(level, threshold, payload) ->
payload | drop`, which is also how `Log` calls it, `fn(lvl, lg.threshold, data)`
with a `Data` result.  A Go function value may touch program state, so the
embedding threads the state `S`. -/
abbrev Filter (S V : Type) := Level → Level → Data V → S → Data V × S

/-- A filter that neither reads nor changes program state: it is a function of
its three arguments alone. -/
def Filter.IsPure {S V : Type} (fn : Filter S V) : Prop :=
  ∃ f : Level → Level → Data V → Data V, ∀ lvl thr d s, fn lvl thr d s = (f lvl thr d, s)

/-- The pure function `f` as a filter. -/
def Filter.ofFun {S V : Type} (f : Level → Level → Data V → Data V) : Filter S V :=
  fun lvl thr d s => (f lvl thr d, s)

/-- Go `type logger struct { encoder Encoder; filters []Filter }`.  `Log` reads
`lg.threshold`, so the record carries that field as well. -/
structure logger (S V : Type) where
  encoder : Encoder S V
  filters : List (Filter S V)
  threshold : Level

/-- One action performed by `Log`. -/
inductive Event (V : Type) where
  /-- The call `fn(lvl, lg.threshold, data)` of the filter at index `pos` of
  `lg.filters`, with the payload it was given and the payload it returned. -/
  | filter (pos : Nat) (lvl threshold : Level) (arg ret : Data V)
  /-- The call `lg.encoder.Encode(data)`. -/
  | encode (arg : Data V)
  /-- The `fmt.Fprintf(os.Stderr, ...)` of the diagnostic `text`. -/
  | report (text : String)
deriving DecidableEq

/-- The index in `lg.filters` of the filter an event calls. -/
def Event.filterPos {V : Type} : Event V → Option Nat
  | .filter pos _ _ _ _ => some pos
  | _ => none

/-- The payload an event hands to a filter or to the encoder. -/
def Event.input {V : Type} : Event V → Option (Data V)
  | .filter _ _ _ arg _ => some arg
  | .encode arg => some arg
  | .report _ => none

/-- The payload a filter call returned. -/
def Event.output {V : Type} : Event V → Option (Data V)
  | .filter _ _ _ _ ret => some ret
  | _ => none

/-- Whether the event is a call of the encoder. -/
def Event.isEncode {V : Type} : Event V → Bool
  | .encode _ => true
  | _ => false

/-- Whether the event is a diagnostic written to standard error. -/
def Event.isReport {V : Type} : Event V → Bool
  | .report _ => true
  | _ => false

/-- The arguments of the encoder calls of a trace, in order. -/
def encodes {V : Type} (tr : List (Event V)) : List (Data V) :=
  tr.filterMap (fun e => match e with
    | .encode arg => some arg
    | _ => none)

/-- The diagnostics of a trace, in order. -/
def reports {V : Type} (tr : List (Event V)) : List String :=
  tr.filterMap (fun e => match e with
    | .report text => some text
    | _ => none)

/-- The filter and encoder calls of a trace, in order: the trace without its
diagnostics. -/
def calls {V : Type} (tr : List (Event V)) : List (Event V) :=
  tr.filter (fun e => !e.isReport)

/-! ## `Log` -/

/-- The loop of `Log` (lines 50-54), run on the filters from index `i` on:
`for _, fn := range filters { if data = fn(lvl, threshold, data); data == nil { return } }`.
The first component is `none` when the loop executed `return`, and `some data`
with the final value of the variable `data` when it ran to its end. -/
def logger.rangeFilters {S V : Type} (lvl threshold : Level) :
    List (Filter S V) → Nat → Data V → S → Option (Data V) × S × List (Event V)
  | [], _, data, s => (some data, s, [])
  | fn :: rest, i, data, s =>
    match fn lvl threshold data s with
    | (data1, s1) =>
      if data1.isNil then
        (none, s1, [Event.filter i lvl threshold data data1])
      else
        match logger.rangeFilters lvl threshold rest (i + 1) data1 s1 with
        | (r, s2, tr) => (r, s2, Event.filter i lvl threshold data data1 :: tr)

/-- What a call of `Log` leaves behind: the record `*lg` (the receiver is a
pointer), the program state, and the actions performed, in order. -/
structure Outcome (S V : Type) where
  lg : logger S V
  state : S
  trace : List (Event V)

/-- The text `fmt.Fprintf(os.Stderr, "Error writing to log: %+v\n", err)` writes. -/
def diagnostic (err : Error) : String :=
  "Error writing to log: " ++ err.msg ++ "\n"

/-- Method `func (lg *logger) Log(lvl Level, data Data)`. -/
def logger.Log {S V : Type} (lg : logger S V) (lvl : Level) (data : Data V) (s : S) :
    Outcome S V :=
  match logger.rangeFilters lvl lg.threshold lg.filters 0 data s with
  | (none, s1, tr) => ⟨lg, s1, tr⟩
  | (some data1, s1, tr) =>
    match lg.encoder.Encode data1 s1 with
    | (none, s2) => ⟨lg, s2, tr ++ [Event.encode data1]⟩
    | (some err, s2) => ⟨lg, s2, tr ++ [Event.encode data1, Event.report (diagnostic err)]⟩

/-- Modelled from the spec: the built-in threshold filter is not in logger.go.
The spec (section 4.4) says it "drops the event if the event is less severe
than the threshold (i.e., higher ordinal value than the threshold's ordinal
value)" and otherwise lets the payload pass unchanged. -/
def thresholdFilter {S V : Type} : Filter S V :=
  fun lvl threshold data s => if lvl > threshold then (Data.nil, s) else (data, s)

/-- The relation "strictly more severe than": the smaller value is the more
severe level. -/
def moreSevere (a b : Level) : Prop := a < b

instance (a b : Level) : Decidable (moreSevere a b) := by
  unfold moreSevere; infer_instance

/-- The four named levels. -/
def namedLevels : List Level := [FatalLevel, ErrorLevel, InfoLevel, TraceLevel]

/-! ## Sample filters and encoders

The program state of the samples is a counter of the encoder calls made so far. -/

/-- A filter that drops every event. -/
def dropAll : Filter Nat String := fun _ _ _ s => (Data.nil, s)

/-- A filter that adds the key `"host"` with value `"x"` to the payload; handed the nil
map it starts from the map without keys. -/
def addHost : Filter Nat String := fun _ _ d s =>
  (if d.isNil then (Data.empty : Data String).set "host" "x" else d.set "host" "x", s)

/-- A filter that adds the key `"env"` with value `"prod"` to the payload; handed the nil
map it starts from the map without keys. -/
def addEnv : Filter Nat String := fun _ _ d s =>
  (if d.isNil then (Data.empty : Data String).set "env" "prod" else d.set "env" "prod", s)

/-- A filter that removes every key: it returns the non-nil map without keys. -/
def clearAll : Filter Nat String := fun _ _ _ s => (Data.empty, s)

/-- An encoder that always succeeds. -/
def okEncoder : Encoder Nat String := ⟨fun _ s => (none, s + 1)⟩

/-- An encoder that always fails. -/
def failingEncoder : Encoder Nat String := ⟨fun _ s => (some ⟨"sink unavailable"⟩, s + 1)⟩

/-- An encoder that succeeds on its first call and fails afterwards. -/
def onceEncoder : Encoder Nat String :=
  ⟨fun _ s => (if s = 0 then none else some ⟨"sink closed"⟩, s + 1)⟩

/-- The payload `{"msg": "x"}`. -/
def msgX : Data String := (Data.empty : Data String).set "msg" "x"

/-- A filter whose result and effect on the program state do not depend on its level
argument. -/
def Filter.IgnoresLevel {S V : Type} (fn : Filter S V) : Prop :=
  ∀ (l1 l2 thr : Level) (d : Data V) (s : S), fn l1 thr d s = fn l2 thr d s

/-- A filter that returns its payload argument unchanged, whatever the level, the
threshold and the program state. -/
def Filter.IsPassThrough {S V : Type} (fn : Filter S V) : Prop :=
  ∀ (lvl thr : Level) (d : Data V) (s : S), (fn lvl thr d s).1 = d

/-- The indices of the filters a trace calls, in the order of the calls. -/
def filterPositions {V : Type} (tr : List (Event V)) : List Nat :=
  tr.filterMap Event.filterPos

/-- A filter that returns its payload unchanged and counts nothing. -/
def passThrough : Filter Nat String := fun _ _ d s => (d, s)

/-- A filter that ignores the level: it drops the payloads that carry the key
`"debug"` and lets every other payload pass unchanged. -/
def dropDebug : Filter Nat String := fun _ _ d s =>
  (if (d.get "debug").isSome then Data.nil else d, s)

/-! ## The loop: unfolding and shape of its trace -/

section Loop

variable {S V : Type}

theorem rangeFilters_nil (lvl thr : Level) (i : Nat) (d : Data V) (s : S) :
    logger.rangeFilters lvl thr ([] : List (Filter S V)) i d s = (some d, s, []) := rfl

theorem rangeFilters_cons_drop (lvl thr : Level) (fn : Filter S V) (rest : List (Filter S V))
    (i : Nat) (d : Data V) (s : S) (h : (fn lvl thr d s).1.isNil = true) :
    logger.rangeFilters lvl thr (fn :: rest) i d s =
      (none, (fn lvl thr d s).2, [Event.filter i lvl thr d (fn lvl thr d s).1]) := by
  simp [logger.rangeFilters, h]

theorem rangeFilters_cons_pass (lvl thr : Level) (fn : Filter S V) (rest : List (Filter S V))
    (i : Nat) (d : Data V) (s : S) (h : (fn lvl thr d s).1.isNil = false) :
    logger.rangeFilters lvl thr (fn :: rest) i d s =
      ((logger.rangeFilters lvl thr rest (i + 1) (fn lvl thr d s).1 (fn lvl thr d s).2).1,
       (logger.rangeFilters lvl thr rest (i + 1) (fn lvl thr d s).1 (fn lvl thr d s).2).2.1,
       Event.filter i lvl thr d (fn lvl thr d s).1 ::
         (logger.rangeFilters lvl thr rest (i + 1) (fn lvl thr d s).1 (fn lvl thr d s).2).2.2) := by
  simp [logger.rangeFilters, h]

theorem isNil_iff (d : Data V) : d.isNil = true ↔ d = Data.nil := by
  cases d <;> simp [Data.isNil, Data.nil]

theorem isNil_false_iff (d : Data V) : d.isNil = false ↔ d ≠ Data.nil := by
  cases d <;> simp [Data.isNil, Data.nil]

/-- Every action of the loop is a filter call; the `k`-th one calls the filter at index
`i + k` with the level and threshold of the call. -/
theorem rangeFilters_get (lvl thr : Level) (fs : List (Filter S V)) :
    ∀ (i : Nat) (d : Data V) (s : S) (k : Nat) (e : Event V),
      (logger.rangeFilters lvl thr fs i d s).2.2[k]? = some e →
      k < fs.length ∧ ∃ a b, e = Event.filter (i + k) lvl thr a b := by
  induction fs with
  | nil => intro i d s k e h; simp [rangeFilters_nil] at h
  | cons fn rest ih =>
    intro i d s k e h
    cases hn : (fn lvl thr d s).1.isNil with
    | true =>
      rw [rangeFilters_cons_drop lvl thr fn rest i d s hn] at h
      cases k with
      | zero =>
        simp at h
        exact ⟨by simp, _, _, h.symm⟩
      | succ k => simp at h
    | false =>
      rw [rangeFilters_cons_pass lvl thr fn rest i d s hn] at h
      cases k with
      | zero =>
        simp at h
        exact ⟨by simp, _, _, h.symm⟩
      | succ k =>
        simp only [List.getElem?_cons_succ] at h
        obtain ⟨hk, a, b, hab⟩ := ih (i + 1) _ _ k e h
        refine ⟨by simp; omega, a, b, ?_⟩
        rw [hab]; congr 1; omega

/-- The first action of the loop receives the payload the loop was started with. -/
theorem rangeFilters_head (lvl thr : Level) (fs : List (Filter S V))
    (i : Nat) (d : Data V) (s : S) (e : Event V)
    (h : (logger.rangeFilters lvl thr fs i d s).2.2[0]? = some e) :
    e.input = some d := by
  cases fs with
  | nil => simp [rangeFilters_nil] at h
  | cons fn rest =>
    cases hn : (fn lvl thr d s).1.isNil with
    | true =>
      rw [rangeFilters_cons_drop lvl thr fn rest i d s hn] at h
      simp at h; subst h; rfl
    | false =>
      rw [rangeFilters_cons_pass lvl thr fn rest i d s hn] at h
      simp at h; subst h; rfl

/-- A filter call that returns the nil map is the last action of the loop, and the loop
has executed `return`. -/
theorem rangeFilters_drop_last (lvl thr : Level) (fs : List (Filter S V)) :
    ∀ (i : Nat) (d : Data V) (s : S) (k : Nat) (e : Event V),
      (logger.rangeFilters lvl thr fs i d s).2.2[k]? = some e →
      e.output = some Data.nil →
      (logger.rangeFilters lvl thr fs i d s).2.2.length = k + 1 ∧
      (logger.rangeFilters lvl thr fs i d s).1 = none := by
  induction fs with
  | nil => intro i d s k e h; simp [rangeFilters_nil] at h
  | cons fn rest ih =>
    intro i d s k e h ho
    cases hn : (fn lvl thr d s).1.isNil with
    | true =>
      rw [rangeFilters_cons_drop lvl thr fn rest i d s hn] at h ⊢
      cases k with
      | zero => simp
      | succ k => simp at h
    | false =>
      rw [rangeFilters_cons_pass lvl thr fn rest i d s hn] at h ⊢
      cases k with
      | zero =>
        simp at h; subst h
        simp [Event.output] at ho
        exact absurd ho ((isNil_false_iff _).1 hn)
      | succ k =>
        simp only [List.getElem?_cons_succ] at h
        obtain ⟨h1, h2⟩ := ih (i + 1) _ _ k e h ho
        exact ⟨by simp [h1], h2⟩

/-- When the loop runs to its end, it has called every filter, and none returned the nil
map. -/
theorem rangeFilters_some_length (lvl thr : Level) (fs : List (Filter S V)) :
    ∀ (i : Nat) (d : Data V) (s : S) (x : Data V),
      (logger.rangeFilters lvl thr fs i d s).1 = some x →
      (logger.rangeFilters lvl thr fs i d s).2.2.length = fs.length ∧
      ∀ (k : Nat) (e : Event V), (logger.rangeFilters lvl thr fs i d s).2.2[k]? = some e →
        e.output ≠ some Data.nil := by
  intro i d s x hx
  have hno : ∀ (k : Nat) (e : Event V),
      (logger.rangeFilters lvl thr fs i d s).2.2[k]? = some e →
      e.output ≠ some Data.nil := by
    intro k e h ho
    have := (rangeFilters_drop_last lvl thr fs i d s k e h ho).2
    rw [this] at hx; cases hx
  refine ⟨?_, hno⟩
  clear hno
  induction fs generalizing i d s with
  | nil => simp [rangeFilters_nil]
  | cons fn rest ih =>
    cases hn : (fn lvl thr d s).1.isNil with
    | true =>
      rw [rangeFilters_cons_drop lvl thr fn rest i d s hn] at hx
      cases hx
    | false =>
      rw [rangeFilters_cons_pass lvl thr fn rest i d s hn] at hx ⊢
      simp only [List.length_cons]
      rw [ih (i + 1) _ _ hx]

/-- When the loop runs to its end with the payload `x`, the actions of the loop followed by
the encoder call on `x` form a chain: the first action receives the starting payload and
every later action receives what the filter call before it returned. -/
theorem rangeFilters_some_chain (lvl thr : Level) (fs : List (Filter S V)) :
    ∀ (i : Nat) (d : Data V) (s : S) (x : Data V),
      (logger.rangeFilters lvl thr fs i d s).1 = some x →
      (∀ e, ((logger.rangeFilters lvl thr fs i d s).2.2 ++ [Event.encode x])[0]? = some e →
        e.input = some d) ∧
      ∀ (k : Nat) (e e1 : Event V),
        ((logger.rangeFilters lvl thr fs i d s).2.2 ++ [Event.encode x])[k]? = some e →
        ((logger.rangeFilters lvl thr fs i d s).2.2 ++ [Event.encode x])[k + 1]? = some e1 →
        e1.input = e.output := by
  induction fs with
  | nil =>
    intro i d s x hx
    simp only [rangeFilters_nil] at hx ⊢
    cases hx
    constructor
    · intro e h; simp at h; subst h; rfl
    · intro k e e1 _ h1; simp at h1
  | cons fn rest ih =>
    intro i d s x hx
    cases hn : (fn lvl thr d s).1.isNil with
    | true =>
      rw [rangeFilters_cons_drop lvl thr fn rest i d s hn] at hx
      cases hx
    | false =>
      rw [rangeFilters_cons_pass lvl thr fn rest i d s hn] at hx ⊢
      obtain ⟨ih0, ih1⟩ := ih (i + 1) _ _ x hx
      constructor
      · intro e h; simp at h; subst h; rfl
      · intro k e e1 h h1
        cases k with
        | zero =>
          simp only [List.cons_append, List.getElem?_cons_zero, Option.some.injEq] at h
          simp only [List.cons_append, zero_add, List.getElem?_cons_succ] at h1
          subst h
          exact ih0 e1 h1
        | succ k =>
          simp only [List.cons_append, List.getElem?_cons_succ] at h h1
          exact ih1 k e e1 h h1

/-- Every action of the loop is a filter call with the level and threshold of the call. -/
theorem rangeFilters_mem (lvl thr : Level) (fs : List (Filter S V)) (i : Nat) (d : Data V)
    (s : S) (e : Event V) (h : e ∈ (logger.rangeFilters lvl thr fs i d s).2.2) :
    ∃ p a b, e = Event.filter p lvl thr a b := by
  obtain ⟨k, hk⟩ := List.mem_iff_getElem?.1 h
  obtain ⟨_, a, b, hab⟩ := rangeFilters_get lvl thr fs i d s k e hk
  exact ⟨_, a, b, hab⟩

theorem rangeFilters_encodes (lvl thr : Level) (fs : List (Filter S V)) (i : Nat) (d : Data V)
    (s : S) : encodes (logger.rangeFilters lvl thr fs i d s).2.2 = [] := by
  unfold encodes
  rw [List.filterMap_eq_nil_iff]
  intro e he
  obtain ⟨p, a, b, rfl⟩ := rangeFilters_mem lvl thr fs i d s e he
  rfl

theorem rangeFilters_reports (lvl thr : Level) (fs : List (Filter S V)) (i : Nat) (d : Data V)
    (s : S) : reports (logger.rangeFilters lvl thr fs i d s).2.2 = [] := by
  unfold reports
  rw [List.filterMap_eq_nil_iff]
  intro e he
  obtain ⟨p, a, b, rfl⟩ := rangeFilters_mem lvl thr fs i d s e he
  rfl

theorem rangeFilters_calls (lvl thr : Level) (fs : List (Filter S V)) (i : Nat) (d : Data V)
    (s : S) : calls (logger.rangeFilters lvl thr fs i d s).2.2 =
      (logger.rangeFilters lvl thr fs i d s).2.2 := by
  unfold calls
  rw [List.filter_eq_self]
  intro e he
  obtain ⟨p, a, b, rfl⟩ := rangeFilters_mem lvl thr fs i d s e he
  rfl

/-- The return value recorded for the `k`-th action is what the filter at index `k` of the
list returned on the recorded argument, in some program state. -/
theorem rangeFilters_sound (lvl thr : Level) (fs : List (Filter S V)) :
    ∀ (i : Nat) (d : Data V) (s : S) (k : Nat) (e : Event V),
      (logger.rangeFilters lvl thr fs i d s).2.2[k]? = some e →
      ∃ fn a w, fs[k]? = some fn ∧ e = Event.filter (i + k) lvl thr a (fn lvl thr a w).1 := by
  induction fs with
  | nil => intro i d s k e h; simp [rangeFilters_nil] at h
  | cons fn rest ih =>
    intro i d s k e h
    cases hn : (fn lvl thr d s).1.isNil with
    | true =>
      rw [rangeFilters_cons_drop lvl thr fn rest i d s hn] at h
      cases k with
      | zero =>
        simp at h
        exact ⟨fn, d, s, by simp, h.symm⟩
      | succ k => simp at h
    | false =>
      rw [rangeFilters_cons_pass lvl thr fn rest i d s hn] at h
      cases k with
      | zero =>
        simp at h
        exact ⟨fn, d, s, by simp, h.symm⟩
      | succ k =>
        simp only [List.getElem?_cons_succ] at h
        obtain ⟨g, a, w, hg, hab⟩ := ih (i + 1) _ _ k e h
        refine ⟨g, a, w, by simpa using hg, ?_⟩
        rw [hab]; congr 1; omega

/-- When the loop executes `return`, some filter call returned the nil map. -/
theorem rangeFilters_none (lvl thr : Level) (fs : List (Filter S V)) :
    ∀ (i : Nat) (d : Data V) (s : S),
      (logger.rangeFilters lvl thr fs i d s).1 = none →
      ∃ e ∈ (logger.rangeFilters lvl thr fs i d s).2.2, e.output = some Data.nil := by
  induction fs with
  | nil => intro i d s h; simp [rangeFilters_nil] at h
  | cons fn rest ih =>
    intro i d s h
    cases hn : (fn lvl thr d s).1.isNil with
    | true =>
      rw [rangeFilters_cons_drop lvl thr fn rest i d s hn]
      refine ⟨_, List.mem_singleton_self _, ?_⟩
      simp [Event.output, (isNil_iff _).1 hn]
    | false =>
      rw [rangeFilters_cons_pass lvl thr fn rest i d s hn] at h ⊢
      obtain ⟨e, he, ho⟩ := ih (i + 1) _ _ h
      exact ⟨e, List.mem_cons_of_mem _ he, ho⟩

/-- With filters that are pure functions, a loop that runs to its end leaves the
composition of the filters, applied in list order, in `data`. -/
theorem rangeFilters_ofFun (lvl thr : Level) (fs : List (Level → Level → Data V → Data V)) :
    ∀ (i : Nat) (d : Data V) (s : S) (x : Data V),
      (logger.rangeFilters lvl thr (fs.map (Filter.ofFun : _ → Filter S V)) i d s).1 = some x →
      x = fs.foldl (fun acc f => f lvl thr acc) d := by
  induction fs with
  | nil => intro i d s x h; simp [rangeFilters_nil] at h; simp [h]
  | cons f rest ih =>
    intro i d s x h
    rw [List.map_cons] at h
    cases hn : ((Filter.ofFun f : Filter S V) lvl thr d s).1.isNil with
    | true =>
      rw [rangeFilters_cons_drop lvl thr _ _ i d s hn] at h
      cases h
    | false =>
      rw [rangeFilters_cons_pass lvl thr _ _ i d s hn] at h
      exact ih (i + 1) _ _ x h

/-- A loop over pure filters leaves the program state as it was, and its result and
trace do not depend on the program state. -/
theorem rangeFilters_pure (lvl thr : Level) (fs : List (Filter S V))
    (hpure : ∀ fn ∈ fs, Filter.IsPure fn) :
    ∀ (i : Nat) (d : Data V) (s : S),
      (logger.rangeFilters lvl thr fs i d s).2.1 = s ∧
      ∀ s1 : S, (logger.rangeFilters lvl thr fs i d s1).1 =
          (logger.rangeFilters lvl thr fs i d s).1 ∧
        (logger.rangeFilters lvl thr fs i d s1).2.2 =
          (logger.rangeFilters lvl thr fs i d s).2.2 := by
  induction fs with
  | nil => intro i d s; exact ⟨rfl, fun _ => ⟨rfl, rfl⟩⟩
  | cons fn rest ih =>
    intro i d s
    obtain ⟨f, hf⟩ := hpure fn (List.mem_cons_self _ _)
    have ih1 := ih (fun g hg => hpure g (List.mem_cons_of_mem _ hg)) (i + 1) (f lvl thr d)
    cases hn : (f lvl thr d).isNil with
    | true =>
      have hd : ∀ w : S, logger.rangeFilters lvl thr (fn :: rest) i d w =
          (none, w, [Event.filter i lvl thr d (f lvl thr d)]) := by
        intro w
        rw [rangeFilters_cons_drop lvl thr fn rest i d w (by rw [hf]; exact hn), hf]
      exact ⟨by rw [hd s], fun s1 => by rw [hd s1, hd s]; exact ⟨rfl, rfl⟩⟩
    | false =>
      have hp : ∀ w : S, logger.rangeFilters lvl thr (fn :: rest) i d w =
          ((logger.rangeFilters lvl thr rest (i + 1) (f lvl thr d) w).1,
           (logger.rangeFilters lvl thr rest (i + 1) (f lvl thr d) w).2.1,
           Event.filter i lvl thr d (f lvl thr d) ::
             (logger.rangeFilters lvl thr rest (i + 1) (f lvl thr d) w).2.2) := by
        intro w
        rw [rangeFilters_cons_pass lvl thr fn rest i d w (by rw [hf]; exact hn), hf]
      refine ⟨by rw [hp s]; exact (ih1 s).1, fun s1 => ?_⟩
      rw [hp s1, hp s]
      exact ⟨((ih1 s).2 s1).1, by simp only; rw [((ih1 s).2 s1).2]⟩

/-- A loop that performed no action ran to its end with the payload it started with. -/
theorem rangeFilters_trace_nil (lvl thr : Level) (fs : List (Filter S V)) (i : Nat)
    (d : Data V) (s : S) (h : (logger.rangeFilters lvl thr fs i d s).2.2 = []) :
    (logger.rangeFilters lvl thr fs i d s).1 = some d := by
  cases fs with
  | nil => rfl
  | cons fn rest =>
    cases hn : (fn lvl thr d s).1.isNil with
    | true => rw [rangeFilters_cons_drop lvl thr fn rest i d s hn] at h; simp at h
    | false => rw [rangeFilters_cons_pass lvl thr fn rest i d s hn] at h; simp at h

/-- After a filter call that returned a payload `b` other than the nil map, either the
next action of the loop receives `b`, or the call was the last of the list and the loop
ran to its end with `b`. -/
theorem rangeFilters_next (lvl thr : Level) (fs : List (Filter S V)) :
    ∀ (i : Nat) (d : Data V) (s : S) (k : Nat) (e : Event V) (b : Data V),
      (logger.rangeFilters lvl thr fs i d s).2.2[k]? = some e →
      e.output = some b → b ≠ Data.nil →
      (∃ e1, (logger.rangeFilters lvl thr fs i d s).2.2[k + 1]? = some e1 ∧
        e1.input = some b) ∨
      ((logger.rangeFilters lvl thr fs i d s).2.2.length = k + 1 ∧
        (logger.rangeFilters lvl thr fs i d s).1 = some b) := by
  induction fs with
  | nil => intro i d s k e b h; simp [rangeFilters_nil] at h
  | cons fn rest ih =>
    intro i d s k e b h ho hb
    cases hn : (fn lvl thr d s).1.isNil with
    | true =>
      rw [rangeFilters_cons_drop lvl thr fn rest i d s hn] at h
      cases k with
      | zero =>
        simp at h; subst h
        simp only [Event.output, Option.some.injEq] at ho
        exact absurd (ho ▸ (isNil_iff _).1 hn) hb
      | succ k => simp at h
    | false =>
      rw [rangeFilters_cons_pass lvl thr fn rest i d s hn] at h ⊢
      cases k with
      | zero =>
        simp only [List.getElem?_cons_zero, Option.some.injEq] at h
        subst h
        simp only [Event.output, Option.some.injEq] at ho
        subst ho
        simp only [zero_add, List.getElem?_cons_succ, List.length_cons]
        cases h0 : (logger.rangeFilters lvl thr rest (i + 1) (fn lvl thr d s).1
            (fn lvl thr d s).2).2.2 with
        | nil =>
          right
          exact ⟨rfl, by
            have := rangeFilters_trace_nil lvl thr rest (i + 1) _ _ h0
            exact this⟩
        | cons e1 tl =>
          left
          refine ⟨e1, by simp, ?_⟩
          exact rangeFilters_head lvl thr rest (i + 1) _ _ e1 (by rw [h0]; simp)
      | succ k =>
        simp only [List.getElem?_cons_succ] at h
        rcases ih (i + 1) _ _ k e b h ho hb with ⟨e1, h1, h2⟩ | ⟨h1, h2⟩
        · left; exact ⟨e1, by simpa using h1, h2⟩
        · right; exact ⟨by simp [h1], h2⟩

/-- The loop calls the filters at consecutive indices, starting at `i`. -/
theorem rangeFilters_positions (lvl thr : Level) (fs : List (Filter S V)) :
    ∀ (i : Nat) (d : Data V) (s : S),
      filterPositions (logger.rangeFilters lvl thr fs i d s).2.2 =
        List.range' i (logger.rangeFilters lvl thr fs i d s).2.2.length := by
  induction fs with
  | nil => intro i d s; simp [rangeFilters_nil, filterPositions]
  | cons fn rest ih =>
    intro i d s
    cases hn : (fn lvl thr d s).1.isNil with
    | true =>
      rw [rangeFilters_cons_drop lvl thr fn rest i d s hn]
      simp [filterPositions, Event.filterPos]
    | false =>
      rw [rangeFilters_cons_pass lvl thr fn rest i d s hn]
      have := ih (i + 1) (fn lvl thr d s).1 (fn lvl thr d s).2
      unfold filterPositions at this ⊢
      simp only [List.length_cons, List.range'_succ]
      rw [List.filterMap_cons]
      simp only [Event.filterPos]
      rw [this]

/-- The loop makes at most as many calls as there are filters. -/
theorem rangeFilters_length_le (lvl thr : Level) (fs : List (Filter S V)) (i : Nat)
    (d : Data V) (s : S) :
    (logger.rangeFilters lvl thr fs i d s).2.2.length ≤ fs.length := by
  by_contra hc
  have hlt : fs.length < (logger.rangeFilters lvl thr fs i d s).2.2.length := by omega
  have hget := List.getElem?_eq_getElem hlt
  have := (rangeFilters_get lvl thr fs i d s fs.length _ hget).1
  omega

/-- With filters that ignore the level, the result of the loop and the program state it
leaves do not depend on the level. -/
theorem rangeFilters_level (l1 l2 thr : Level) (fs : List (Filter S V))
    (hign : ∀ fn ∈ fs, Filter.IgnoresLevel fn) :
    ∀ (i : Nat) (d : Data V) (s : S),
      (logger.rangeFilters l1 thr fs i d s).1 = (logger.rangeFilters l2 thr fs i d s).1 ∧
      (logger.rangeFilters l1 thr fs i d s).2.1 = (logger.rangeFilters l2 thr fs i d s).2.1 := by
  induction fs with
  | nil => intro i d s; exact ⟨rfl, rfl⟩
  | cons fn rest ih =>
    intro i d s
    have hfn : fn l1 thr d s = fn l2 thr d s := hign fn (List.mem_cons_self _ _) l1 l2 thr d s
    have ih1 := ih (fun g hg => hign g (List.mem_cons_of_mem _ hg)) (i + 1)
      (fn l2 thr d s).1 (fn l2 thr d s).2
    cases hn : (fn l2 thr d s).1.isNil with
    | true =>
      rw [rangeFilters_cons_drop l1 thr fn rest i d s (by rw [hfn]; exact hn),
        rangeFilters_cons_drop l2 thr fn rest i d s hn, hfn]
      exact ⟨rfl, rfl⟩
    | false =>
      rw [rangeFilters_cons_pass l1 thr fn rest i d s (by rw [hfn]; exact hn),
        rangeFilters_cons_pass l2 thr fn rest i d s hn, hfn]
      exact ih1

/-- Filters that return their payload unchanged carry a payload other than the nil map
to the end of the loop. -/
theorem rangeFilters_passThrough (lvl thr : Level) (fs : List (Filter S V))
    (hpass : ∀ fn ∈ fs, Filter.IsPassThrough fn) :
    ∀ (i : Nat) (d : Data V) (s : S), d ≠ Data.nil →
      (logger.rangeFilters lvl thr fs i d s).1 = some d := by
  induction fs with
  | nil => intro i d s _; rfl
  | cons fn rest ih =>
    intro i d s hd
    have hfn : (fn lvl thr d s).1 = d := hpass fn (List.mem_cons_self _ _) lvl thr d s
    have hn : (fn lvl thr d s).1.isNil = false := by
      rw [hfn]; exact (isNil_false_iff d).2 hd
    rw [rangeFilters_cons_pass lvl thr fn rest i d s hn]
    have := ih (fun g hg => hpass g (List.mem_cons_of_mem _ hg)) (i + 1)
      (fn lvl thr d s).1 (fn lvl thr d s).2 (by rw [hfn]; exact hd)
    rw [hfn] at this ⊢
    exact this

end Loop

/-! ## `Log`: the three ways a call ends -/

section LogCases

variable {S V : Type}

/-- The loop executed `return`: `Log` does nothing more. -/
theorem Log_of_drop (lg : logger S V) (lvl : Level) (d : Data V) (s : S)
    (h : (logger.rangeFilters lvl lg.threshold lg.filters 0 d s).1 = none) :
    lg.Log lvl d s =
      ⟨lg, (logger.rangeFilters lvl lg.threshold lg.filters 0 d s).2.1,
        (logger.rangeFilters lvl lg.threshold lg.filters 0 d s).2.2⟩ := by
  unfold logger.Log
  split
  · next s1 tr heq => rw [heq]
  · next x s1 tr heq => rw [heq] at h; cases h

/-- The loop ran to its end and the encoder returned the nil error. -/
theorem Log_of_encoded (lg : logger S V) (lvl : Level) (d : Data V) (s : S) (x : Data V)
    (h : (logger.rangeFilters lvl lg.threshold lg.filters 0 d s).1 = some x)
    (henc : (lg.encoder.Encode x
      (logger.rangeFilters lvl lg.threshold lg.filters 0 d s).2.1).1 = none) :
    lg.Log lvl d s =
      ⟨lg, (lg.encoder.Encode x (logger.rangeFilters lvl lg.threshold lg.filters 0 d s).2.1).2,
        (logger.rangeFilters lvl lg.threshold lg.filters 0 d s).2.2 ++ [Event.encode x]⟩ := by
  unfold logger.Log
  split
  · next s1 tr heq => rw [heq] at h; cases h
  · next y s1 tr heq =>
    rw [heq] at h henc ⊢
    cases h
    simp only at henc ⊢
    split
    · next s2 he => rw [he]
    · next err s2 he => rw [he] at henc; cases henc

/-- The loop ran to its end and the encoder returned the error `err`. -/
theorem Log_of_failed (lg : logger S V) (lvl : Level) (d : Data V) (s : S) (x : Data V)
    (err : Error)
    (h : (logger.rangeFilters lvl lg.threshold lg.filters 0 d s).1 = some x)
    (henc : (lg.encoder.Encode x
      (logger.rangeFilters lvl lg.threshold lg.filters 0 d s).2.1).1 = some err) :
    lg.Log lvl d s =
      ⟨lg, (lg.encoder.Encode x (logger.rangeFilters lvl lg.threshold lg.filters 0 d s).2.1).2,
        (logger.rangeFilters lvl lg.threshold lg.filters 0 d s).2.2 ++
          [Event.encode x, Event.report (diagnostic err)]⟩ := by
  unfold logger.Log
  split
  · next s1 tr heq => rw [heq] at h; cases h
  · next y s1 tr heq =>
    rw [heq] at h henc ⊢
    cases h
    simp only at henc ⊢
    split
    · next s2 he => rw [he] at henc; cases henc
    · next e2 s2 he => rw [he] at henc; cases henc; rw [he]

/-- The trace of `Log` is the trace of the loop, followed by the encoder call and, if the
encoder failed, by the diagnostic. -/
theorem Log_trace_cases (lg : logger S V) (lvl : Level) (d : Data V) (s : S) :
    ((logger.rangeFilters lvl lg.threshold lg.filters 0 d s).1 = none ∧
      (lg.Log lvl d s).trace = (logger.rangeFilters lvl lg.threshold lg.filters 0 d s).2.2) ∨
    (∃ x, (logger.rangeFilters lvl lg.threshold lg.filters 0 d s).1 = some x ∧
      (lg.encoder.Encode x
        (logger.rangeFilters lvl lg.threshold lg.filters 0 d s).2.1).1 = none ∧
      (lg.Log lvl d s).trace =
        (logger.rangeFilters lvl lg.threshold lg.filters 0 d s).2.2 ++ [Event.encode x]) ∨
    (∃ x err, (logger.rangeFilters lvl lg.threshold lg.filters 0 d s).1 = some x ∧
      (lg.encoder.Encode x
        (logger.rangeFilters lvl lg.threshold lg.filters 0 d s).2.1).1 = some err ∧
      (lg.Log lvl d s).trace =
        (logger.rangeFilters lvl lg.threshold lg.filters 0 d s).2.2 ++
          [Event.encode x, Event.report (diagnostic err)]) := by
  cases h : (logger.rangeFilters lvl lg.threshold lg.filters 0 d s).1 with
  | none => left; exact ⟨rfl, by rw [Log_of_drop lg lvl d s h]⟩
  | some x =>
    right
    cases he : (lg.encoder.Encode x
        (logger.rangeFilters lvl lg.threshold lg.filters 0 d s).2.1).1 with
    | none => left; exact ⟨x, rfl, he, by rw [Log_of_encoded lg lvl d s x h he]⟩
    | some err => right; exact ⟨x, err, rfl, he, by rw [Log_of_failed lg lvl d s x err h he]⟩

/-- When the loop runs to its end with the payload `x`, the trace of `Log` is the trace of
the loop, the encoder call on `x`, and at most one diagnostic. -/
theorem Log_trace_of_some (lg : logger S V) (lvl : Level) (d : Data V) (s : S) (x : Data V)
    (h : (logger.rangeFilters lvl lg.threshold lg.filters 0 d s).1 = some x) :
    ∃ rest, (lg.Log lvl d s).trace =
        ((logger.rangeFilters lvl lg.threshold lg.filters 0 d s).2.2 ++ [Event.encode x]) ++ rest ∧
      (rest = [] ∨ ∃ err, rest = [Event.report (diagnostic err)]) := by
  rcases Log_trace_cases lg lvl d s with ⟨hnone, _⟩ | ⟨y, hy, _, htr⟩ | ⟨y, err, hy, _, htr⟩
  · rw [hnone] at h; cases h
  · rw [hy] at h; cases h
    exact ⟨[], by simpa using htr, Or.inl rfl⟩
  · rw [hy] at h; cases h
    exact ⟨[Event.report (diagnostic err)], by simpa using htr, Or.inr ⟨err, rfl⟩⟩

/-- The method `Log` assigns to no field of `*lg`. -/
theorem Log_lg (lg : logger S V) (lvl : Level) (d : Data V) (s : S) :
    (lg.Log lvl d s).lg = lg := by
  cases h : (logger.rangeFilters lvl lg.threshold lg.filters 0 d s).1 with
  | none => rw [Log_of_drop lg lvl d s h]
  | some x =>
    cases he : (lg.encoder.Encode x
        (logger.rangeFilters lvl lg.threshold lg.filters 0 d s).2.1).1 with
    | none => rw [Log_of_encoded lg lvl d s x h he]
    | some err => rw [Log_of_failed lg lvl d s x err h he]

/-- When the loop runs to its end with the payload `x`, the encoder is called once, on
`x`. -/
theorem Log_encodes_of_some (lg : logger S V) (lvl : Level) (d : Data V) (s : S) (x : Data V)
    (h : (logger.rangeFilters lvl lg.threshold lg.filters 0 d s).1 = some x) :
    encodes (lg.Log lvl d s).trace = [x] := by
  have henc := rangeFilters_encodes lvl lg.threshold lg.filters 0 d s
  obtain ⟨rest, htr, hrest⟩ := Log_trace_of_some lg lvl d s x h
  rw [htr]
  unfold encodes at henc ⊢
  rw [List.filterMap_append, List.filterMap_append, henc]
  rcases hrest with rfl | ⟨err, rfl⟩ <;> rfl

/-- When the loop runs to its end with the payload `x`, the calls made by `Log` are those
of the loop and the encoder call on `x`. -/
theorem Log_calls_of_some (lg : logger S V) (lvl : Level) (d : Data V) (s : S) (x : Data V)
    (h : (logger.rangeFilters lvl lg.threshold lg.filters 0 d s).1 = some x) :
    calls (lg.Log lvl d s).trace =
      (logger.rangeFilters lvl lg.threshold lg.filters 0 d s).2.2 ++ [Event.encode x] := by
  have hc := rangeFilters_calls lvl lg.threshold lg.filters 0 d s
  obtain ⟨rest, htr, hrest⟩ := Log_trace_of_some lg lvl d s x h
  rw [htr]
  unfold calls at hc ⊢
  rw [List.filter_append, List.filter_append, hc]
  rcases hrest with rfl | ⟨err, rfl⟩ <;> simp [Event.isReport]

/-- The trace of `Log` is the trace of the loop followed by actions that are no filter
calls: none when the loop executed `return`, and starting with the encoder call on `x`
when the loop ran to its end with `x`. -/
theorem Log_trace_split (lg : logger S V) (lvl : Level) (d : Data V) (s : S) :
    ∃ rest, (lg.Log lvl d s).trace =
        (logger.rangeFilters lvl lg.threshold lg.filters 0 d s).2.2 ++ rest ∧
      (∀ e ∈ rest, e.filterPos = none) ∧
      ((logger.rangeFilters lvl lg.threshold lg.filters 0 d s).1 = none → rest = []) ∧
      (∀ x, (logger.rangeFilters lvl lg.threshold lg.filters 0 d s).1 = some x →
        rest[0]? = some (Event.encode x)) := by
  rcases Log_trace_cases lg lvl d s with ⟨hnone, htr⟩ | ⟨y, hy, _, htr⟩ | ⟨y, err, hy, _, htr⟩
  · exact ⟨[], by simpa using htr, by simp, fun _ => rfl, fun x hx => by rw [hnone] at hx; cases hx⟩
  · refine ⟨[Event.encode y], htr, ?_, ?_, ?_⟩
    · intro e he; simp at he; subst he; rfl
    · intro h; rw [hy] at h; cases h
    · intro x hx; rw [hy] at hx; cases hx; rfl
  · refine ⟨[Event.encode y, Event.report (diagnostic err)], htr, ?_, ?_, ?_⟩
    · intro e he; simp at he; rcases he with rfl | rfl <;> rfl
    · intro h; rw [hy] at h; cases h
    · intro x hx; rw [hy] at hx; cases hx; rfl

/-- A filter call recorded in the trace of `Log` at index `i` of the chain is the `i`-th
action of the loop. -/
theorem Log_filter_event (lg : logger S V) (lvl : Level) (d : Data V) (s : S)
    (i : Nat) (l t : Level) (a b : Data V)
    (h : Event.filter i l t a b ∈ (lg.Log lvl d s).trace) :
    (logger.rangeFilters lvl lg.threshold lg.filters 0 d s).2.2[i]? =
      some (Event.filter i l t a b) := by
  obtain ⟨rest, htr, hrest, _, _⟩ := Log_trace_split lg lvl d s
  rw [htr] at h
  rcases List.mem_append.1 h with h1 | h1
  · obtain ⟨k, hk⟩ := List.mem_iff_getElem?.1 h1
    obtain ⟨_, a1, b1, hab⟩ := rangeFilters_get lvl lg.threshold lg.filters 0 d s k _ hk
    have hik : i = k := by
      injection hab with h2; omega
    subst hik; exact hk
  · have := hrest _ h1
    simp [Event.filterPos] at this

/-- After a filter call that returned the nil map, `Log` does nothing: no encoder call,
and no call of a filter further down the chain. -/
theorem Log_after_drop (lg : logger S V) (lvl : Level) (d : Data V) (s : S)
    (i : Nat) (l t : Level) (a : Data V)
    (hmem : Event.filter i l t a Data.nil ∈ (lg.Log lvl d s).trace) :
    encodes (lg.Log lvl d s).trace = [] ∧
    ∀ e ∈ (lg.Log lvl d s).trace, ∀ j, e.filterPos = some j → j ≤ i := by
  have hi := Log_filter_event lg lvl d s i l t a Data.nil hmem
  obtain ⟨hlen, hnone⟩ :=
    rangeFilters_drop_last lvl lg.threshold lg.filters 0 d s i _ hi rfl
  have hL := Log_of_drop lg lvl d s hnone
  rw [hL]
  refine ⟨rangeFilters_encodes _ _ _ _ _ _, ?_⟩
  intro e he j hj
  obtain ⟨k1, hk1⟩ := List.mem_iff_getElem?.1 he
  obtain ⟨_, a2, b2, hab2⟩ := rangeFilters_get lvl lg.threshold lg.filters 0 d s k1 e hk1
  have hlt : k1 < (logger.rangeFilters lvl lg.threshold lg.filters 0 d s).2.2.length := by
    by_contra hc
    simp only at hk1
    rw [List.getElem?_eq_none (by omega)] at hk1
    cases hk1
  subst hab2
  simp only [Event.filterPos, Option.some.injEq] at hj
  omega

/-- The diagnostics of a call of `Log`: none when the loop executed `return` or the
encoder returned the nil error, and the one for the error the encoder returned
otherwise. -/
theorem Log_reports (lg : logger S V) (lvl : Level) (d : Data V) (s : S) :
    ((logger.rangeFilters lvl lg.threshold lg.filters 0 d s).1 = none →
      reports (lg.Log lvl d s).trace = []) ∧
    (∀ x, (logger.rangeFilters lvl lg.threshold lg.filters 0 d s).1 = some x →
      (lg.encoder.Encode x
        (logger.rangeFilters lvl lg.threshold lg.filters 0 d s).2.1).1 = none →
      reports (lg.Log lvl d s).trace = []) ∧
    (∀ x err, (logger.rangeFilters lvl lg.threshold lg.filters 0 d s).1 = some x →
      (lg.encoder.Encode x
        (logger.rangeFilters lvl lg.threshold lg.filters 0 d s).2.1).1 = some err →
      reports (lg.Log lvl d s).trace = [diagnostic err]) := by
  have hrep := rangeFilters_reports lvl lg.threshold lg.filters 0 d s
  refine ⟨?_, ?_, ?_⟩
  · intro h
    rw [Log_of_drop lg lvl d s h]; exact hrep
  · intro x h he
    rw [Log_of_encoded lg lvl d s x h he]
    unfold reports at hrep ⊢
    rw [List.filterMap_append, hrep]
    rfl
  · intro x err h he
    rw [Log_of_failed lg lvl d s x err h he]
    unfold reports at hrep ⊢
    rw [List.filterMap_append, hrep]
    rfl

/-- The program state a call of `Log` leaves: the one the loop left when it executed
`return`, and the one the encoder left otherwise. -/
theorem Log_state (lg : logger S V) (lvl : Level) (d : Data V) (s : S) :
    ((logger.rangeFilters lvl lg.threshold lg.filters 0 d s).1 = none →
      (lg.Log lvl d s).state = (logger.rangeFilters lvl lg.threshold lg.filters 0 d s).2.1) ∧
    (∀ x, (logger.rangeFilters lvl lg.threshold lg.filters 0 d s).1 = some x →
      (lg.Log lvl d s).state = (lg.encoder.Encode x
        (logger.rangeFilters lvl lg.threshold lg.filters 0 d s).2.1).2) := by
  constructor
  · intro h; rw [Log_of_drop lg lvl d s h]
  · intro x h
    cases he : (lg.encoder.Encode x
        (logger.rangeFilters lvl lg.threshold lg.filters 0 d s).2.1).1 with
    | none => rw [Log_of_encoded lg lvl d s x h he]
    | some err => rw [Log_of_failed lg lvl d s x err h he]

end LogCases

/-! ## Properties of `Log` -/

section Claims

variable {S V : Type}

/-- When the loop runs to its end, no filter call of the whole trace of `Log` returned the
nil map. -/
theorem Log_no_drop_event (lg : logger S V) (lvl : Level) (d : Data V) (s : S) (x : Data V)
    (h : (logger.rangeFilters lvl lg.threshold lg.filters 0 d s).1 = some x)
    (e : Event V) (he : e ∈ (logger.rangeFilters lvl lg.threshold lg.filters 0 d s).2.2) :
    e.output ≠ some Data.nil := by
  obtain ⟨k, hk⟩ := List.mem_iff_getElem?.1 he
  exact (rangeFilters_some_length lvl lg.threshold lg.filters 0 d s x h).2 k e hk

/-- C1: short-circuit.  With the chain `[F1, F2]` where `F1` returns the nil map (drop) on
every input, `Log` calls neither the filter at index 1 nor the encoder, for every level,
payload, encoder and program state.  More generally, for every logger: if the trace of a
call of `Log` holds a call of the filter at index `i` that returned the nil map, then the
trace holds no encoder call and no call of a filter at an index after `i`. -/
theorem C1_short_circuit :
    (∀ (enc : Encoder S V) (F1 F2 : Filter S V) (thr lvl : Level) (d : Data V) (s : S),
      (∀ l t x w, (F1 l t x w).1 = Data.nil) →
      encodes (logger.Log ⟨enc, [F1, F2], thr⟩ lvl d s).trace = [] ∧
      ∀ e ∈ (logger.Log ⟨enc, [F1, F2], thr⟩ lvl d s).trace, e.filterPos ≠ some 1) ∧
    (∀ (lg : logger S V) (lvl : Level) (d : Data V) (s : S) (i : Nat) (l t : Level)
      (a : Data V),
      Event.filter i l t a Data.nil ∈ (lg.Log lvl d s).trace →
      encodes (lg.Log lvl d s).trace = [] ∧
      ∀ e ∈ (lg.Log lvl d s).trace, ∀ j, e.filterPos = some j → j ≤ i) := by
  constructor
  · intro enc F1 F2 thr lvl d s hF1
    have hn : (F1 lvl thr d s).1.isNil = true := (isNil_iff _).2 (hF1 lvl thr d s)
    have hR := rangeFilters_cons_drop lvl thr F1 [F2] 0 d s hn
    have hL := Log_of_drop ⟨enc, [F1, F2], thr⟩ lvl d s (by rw [hR])
    rw [hL, hR]
    constructor
    · rfl
    · intro e he
      simp only [List.mem_singleton] at he
      subst he
      simp [Event.filterPos]
  · intro lg lvl d s i l t a hmem
    exact Log_after_drop lg lvl d s i l t a hmem

/-- Witness of C1: the chain `[dropAll, addHost]` with an encoder that would succeed, and
the chain `[addHost, dropAll, addHost]`, whose filter at index 1 drops. -/
theorem C1_short_circuit_witness :
    (encodes (logger.Log ⟨okEncoder, [dropAll, addHost], InfoLevel⟩ ErrorLevel msgX 0).trace
        = [] ∧
      ∀ e ∈ (logger.Log ⟨okEncoder, [dropAll, addHost], InfoLevel⟩ ErrorLevel msgX 0).trace,
        e.filterPos ≠ some 1) ∧
    (Event.filter 1 ErrorLevel InfoLevel (msgX.set "host" "x") Data.nil ∈
        (logger.Log ⟨okEncoder, [addHost, dropAll, addHost], InfoLevel⟩
          ErrorLevel msgX 0).trace ∧
      encodes (logger.Log ⟨okEncoder, [addHost, dropAll, addHost], InfoLevel⟩
          ErrorLevel msgX 0).trace = [] ∧
      ∀ e ∈ (logger.Log ⟨okEncoder, [addHost, dropAll, addHost], InfoLevel⟩
          ErrorLevel msgX 0).trace, ∀ j, e.filterPos = some j → j ≤ 1) :=
  ⟨C1_short_circuit.1 okEncoder dropAll addHost InfoLevel ErrorLevel msgX 0
      (fun _ _ _ _ => rfl),
    by decide,
    C1_short_circuit.2 ⟨okEncoder, [addHost, dropAll, addHost], InfoLevel⟩ ErrorLevel msgX 0
      1 ErrorLevel InfoLevel (msgX.set "host" "x") (by decide)⟩

/-- C2: payload threading.  Take a call of `Log` in which no filter call returned the nil
map.  Then the first `n` actions are the calls of the `n` filters in list order, each
recorded with the value that filter returned; action `n` is the encoder call; the first
action receives the payload given to `Log`; and every action up to the encoder call
receives exactly what the filter call before it returned.  With filters that are pure
functions `F1, ..., Fn`, the encoder is called once, on `Fn(...F2(F1(d))...)`. -/
theorem C2_payload_threading (lg : logger S V) (lvl : Level) (d : Data V) (s : S)
    (hnodrop : ∀ e ∈ (lg.Log lvl d s).trace, e.output ≠ some Data.nil) :
    (∀ k, k < lg.filters.length → ∃ fn a w, lg.filters[k]? = some fn ∧
      (lg.Log lvl d s).trace[k]? =
        some (Event.filter k lvl lg.threshold a (fn lvl lg.threshold a w).1)) ∧
    (∃ x, (lg.Log lvl d s).trace[lg.filters.length]? = some (Event.encode x)) ∧
    (∀ e, (lg.Log lvl d s).trace[0]? = some e → e.input = some d) ∧
    (∀ (k : Nat) (e e1 : Event V), k < lg.filters.length →
      (lg.Log lvl d s).trace[k]? = some e → (lg.Log lvl d s).trace[k + 1]? = some e1 →
      e1.input = e.output) ∧
    (∀ fs : List (Level → Level → Data V → Data V), lg.filters = fs.map Filter.ofFun →
      encodes (lg.Log lvl d s).trace = [fs.foldl (fun acc f => f lvl lg.threshold acc) d]) := by
  cases hR : (logger.rangeFilters lvl lg.threshold lg.filters 0 d s).1 with
  | none =>
    exfalso
    obtain ⟨e, he, ho⟩ := rangeFilters_none lvl lg.threshold lg.filters 0 d s hR
    have htr : (lg.Log lvl d s).trace =
        (logger.rangeFilters lvl lg.threshold lg.filters 0 d s).2.2 := by
      rw [Log_of_drop lg lvl d s hR]
    exact hnodrop e (htr ▸ he) ho
  | some x =>
    obtain ⟨rest, htr, hrest⟩ := Log_trace_of_some lg lvl d s x hR
    obtain ⟨hlen, _⟩ := rangeFilters_some_length lvl lg.threshold lg.filters 0 d s x hR
    obtain ⟨hhead, hchain⟩ := rangeFilters_some_chain lvl lg.threshold lg.filters 0 d s x hR
    have hidx : ∀ j, j ≤ lg.filters.length → (lg.Log lvl d s).trace[j]? =
        ((logger.rangeFilters lvl lg.threshold lg.filters 0 d s).2.2 ++ [Event.encode x])[j]? := by
      intro j hj
      rw [htr, List.getElem?_append_left]
      simp [hlen]; omega
    refine ⟨?_, ?_, ?_, ?_, ?_⟩
    · intro k hk
      have hk1 : k < (logger.rangeFilters lvl lg.threshold lg.filters 0 d s).2.2.length := by
        omega
      have hget : (logger.rangeFilters lvl lg.threshold lg.filters 0 d s).2.2[k]? =
          some ((logger.rangeFilters lvl lg.threshold lg.filters 0 d s).2.2[k]) :=
        List.getElem?_eq_getElem hk1
      obtain ⟨fn, a, w, hfn, hev⟩ :=
        rangeFilters_sound lvl lg.threshold lg.filters 0 d s k _ hget
      refine ⟨fn, a, w, hfn, ?_⟩
      rw [hidx k (by omega), List.getElem?_append_left hk1, hget, hev]
      simp
    · refine ⟨x, ?_⟩
      rw [hidx _ (le_refl _), ← hlen]
      simp
    · intro e he
      rw [hidx 0 (by omega)] at he
      exact hhead e he
    · intro k e e1 hk he he1
      rw [hidx k (by omega)] at he
      rw [hidx (k + 1) (by omega)] at he1
      exact hchain k e e1 he he1
    · intro fs hfs
      have hx : x = fs.foldl (fun acc f => f lvl lg.threshold acc) d := by
        rw [hfs] at hR
        exact rangeFilters_ofFun lvl lg.threshold fs 0 d s x hR
      rw [htr, ← hx]
      have henc := rangeFilters_encodes lvl lg.threshold lg.filters 0 d s
      unfold encodes at henc ⊢
      rw [List.filterMap_append, List.filterMap_append, henc]
      rcases hrest with rfl | ⟨err, rfl⟩ <;> simp

/-- Witness of C2: `addHost` followed by `addEnv`.  The second filter receives the payload
with `"host"`, not the original, and the encoder receives what the second filter
returned. -/
theorem C2_payload_threading_witness :
    (∀ e ∈ (logger.Log ⟨okEncoder, [addHost, addEnv], InfoLevel⟩ ErrorLevel msgX 0).trace,
      e.output ≠ some Data.nil) ∧
    (∃ x, (logger.Log ⟨okEncoder, [addHost, addEnv], InfoLevel⟩ ErrorLevel msgX 0).trace[2]? =
      some (Event.encode x)) ∧
    (∀ e, (logger.Log ⟨okEncoder, [addHost, addEnv], InfoLevel⟩ ErrorLevel msgX 0).trace[0]? =
      some e → e.input = some msgX) ∧
    (logger.Log ⟨okEncoder, [addHost, addEnv], InfoLevel⟩ ErrorLevel msgX 0).trace =
      [Event.filter 0 ErrorLevel InfoLevel msgX (msgX.set "host" "x"),
       Event.filter 1 ErrorLevel InfoLevel (msgX.set "host" "x")
         ((msgX.set "host" "x").set "env" "prod"),
       Event.encode ((msgX.set "host" "x").set "env" "prod")] ∧
    ((msgX.set "host" "x").set "env" "prod").get "host" = some "x" ∧
    msgX.get "host" = none :=
  ⟨by decide,
    (C2_payload_threading ⟨okEncoder, [addHost, addEnv], InfoLevel⟩ ErrorLevel msgX 0
      (by decide)).2.1,
    (C2_payload_threading ⟨okEncoder, [addHost, addEnv], InfoLevel⟩ ErrorLevel msgX 0
      (by decide)).2.2.1,
    by decide, by decide, by decide⟩

/-- C3, counterexample: with threshold `InfoLevel` and the threshold filter as only
filter, `Log(ErrorLevel, nil)` does not call the encoder although `ErrorLevel` is at
least as severe as `InfoLevel`: the filter hands the nil payload back and `Log` takes it
as drop. -/
theorem C3_counterexample :
    ErrorLevel ≤ InfoLevel ∧
    encodes (logger.Log ⟨okEncoder, [thresholdFilter], InfoLevel⟩ ErrorLevel Data.nil 0).trace
      = [] ∧
    (logger.Log ⟨okEncoder, [thresholdFilter], InfoLevel⟩ ErrorLevel Data.nil 0).trace =
      [Event.filter 0 ErrorLevel InfoLevel Data.nil Data.nil] := by
  decide

/-- C3, amended: threshold gating.  For a logger with threshold `thr` whose only filter is
the threshold filter, every level and every payload that is not the nil map (the non-nil
map without keys included): `Log` calls the encoder if and only if `lvl ≤ thr`, and then
exactly once, on the payload unchanged. -/
theorem C3_threshold_gating (enc : Encoder S V) (thr lvl : Level) (d : Data V) (s : S)
    (hd : d ≠ Data.nil) :
    (encodes (logger.Log ⟨enc, [thresholdFilter], thr⟩ lvl d s).trace ≠ [] ↔ lvl ≤ thr) ∧
    (lvl ≤ thr → encodes (logger.Log ⟨enc, [thresholdFilter], thr⟩ lvl d s).trace = [d]) := by
  by_cases h : lvl ≤ thr
  · have hf : (thresholdFilter : Filter S V) lvl thr d s = (d, s) := by
      simp [thresholdFilter, not_lt.2 h]
    have hn : ((thresholdFilter : Filter S V) lvl thr d s).1.isNil = false := by
      rw [hf]; exact (isNil_false_iff d).2 hd
    have hR : logger.rangeFilters lvl thr [(thresholdFilter : Filter S V)] 0 d s =
        (some d, s, [Event.filter 0 lvl thr d d]) := by
      rw [rangeFilters_cons_pass lvl thr _ _ 0 d s hn, hf, rangeFilters_nil]
    obtain ⟨rest, htr, hrest⟩ :=
      Log_trace_of_some ⟨enc, [thresholdFilter], thr⟩ lvl d s d (by rw [hR])
    rw [hR] at htr
    have he : encodes (logger.Log ⟨enc, [thresholdFilter], thr⟩ lvl d s).trace = [d] := by
      rw [htr]
      rcases hrest with rfl | ⟨err, rfl⟩ <;> rfl
    exact ⟨⟨fun _ => h, fun _ => by rw [he]; simp⟩, fun _ => he⟩
  · have hf : (thresholdFilter : Filter S V) lvl thr d s = (Data.nil, s) := by
      simp [thresholdFilter, not_le.1 h]
    have hn : ((thresholdFilter : Filter S V) lvl thr d s).1.isNil = true := by
      rw [hf]; rfl
    have hR := rangeFilters_cons_drop lvl thr (thresholdFilter : Filter S V) [] 0 d s hn
    have hL := Log_of_drop ⟨enc, [thresholdFilter], thr⟩ lvl d s (by rw [hR])
    have he : encodes (logger.Log ⟨enc, [thresholdFilter], thr⟩ lvl d s).trace = [] := by
      rw [hL, hR]; rfl
    exact ⟨⟨fun hne => absurd he hne, fun hle => absurd hle h⟩, fun hle => absurd hle h⟩

/-- Witness of C3: threshold `InfoLevel`.  `Log(ErrorLevel, {"msg": "x"})` calls the
encoder on `{"msg": "x"}`; `Log(TraceLevel, {"msg": "x"})` does not call the encoder. -/
theorem C3_threshold_gating_witness :
    msgX ≠ Data.nil ∧
    encodes (logger.Log ⟨okEncoder, [thresholdFilter], InfoLevel⟩ ErrorLevel msgX 0).trace
      = [msgX] ∧
    ¬ encodes (logger.Log ⟨okEncoder, [thresholdFilter], InfoLevel⟩ TraceLevel msgX 0).trace
      ≠ [] :=
  ⟨by decide,
    (C3_threshold_gating okEncoder InfoLevel ErrorLevel msgX 0 (by decide)).2 (by decide),
    fun h => absurd ((C3_threshold_gating okEncoder InfoLevel TraceLevel msgX 0
      (by decide)).1.1 h) (by decide)⟩

/-- C4: encoder failure is swallowed and reported.  Take a call of `Log` whose loop runs
to its end with payload `x` (the chain does not drop).  If the encoder returns an error,
`Log` returns: its outcome is the unchanged logger, the state the encoder left, and the
trace of the loop followed by the encoder call and exactly one diagnostic, the one for
that error.  If the encoder returns the nil error, the trace holds no diagnostic. -/
theorem C4_encoder_failure_reported (lg : logger S V) (lvl : Level) (d : Data V) (s : S)
    (x : Data V) (hpass : (logger.rangeFilters lvl lg.threshold lg.filters 0 d s).1 = some x) :
    (∀ err, (lg.encoder.Encode x
        (logger.rangeFilters lvl lg.threshold lg.filters 0 d s).2.1).1 = some err →
      lg.Log lvl d s =
        ⟨lg, (lg.encoder.Encode x
            (logger.rangeFilters lvl lg.threshold lg.filters 0 d s).2.1).2,
          (logger.rangeFilters lvl lg.threshold lg.filters 0 d s).2.2 ++
            [Event.encode x, Event.report (diagnostic err)]⟩ ∧
      reports (lg.Log lvl d s).trace = [diagnostic err] ∧
      (reports (lg.Log lvl d s).trace).length = 1) ∧
    ((lg.encoder.Encode x
        (logger.rangeFilters lvl lg.threshold lg.filters 0 d s).2.1).1 = none →
      reports (lg.Log lvl d s).trace = []) := by
  have hrep := rangeFilters_reports lvl lg.threshold lg.filters 0 d s
  constructor
  · intro err herr
    have hL := Log_of_failed lg lvl d s x err hpass herr
    have hr : reports (lg.Log lvl d s).trace = [diagnostic err] := by
      rw [hL]
      unfold reports at hrep ⊢
      rw [List.filterMap_append, hrep]
      rfl
    exact ⟨hL, hr, by rw [hr]; rfl⟩
  · intro hok
    rw [Log_of_encoded lg lvl d s x hpass hok]
    unfold reports at hrep ⊢
    rw [List.filterMap_append, hrep]
    rfl

/-- Witness of C4: a failing encoder behind `addHost` gives one diagnostic; an encoder that
succeeds gives none. -/
theorem C4_encoder_failure_reported_witness :
    (logger.rangeFilters ErrorLevel InfoLevel [addHost] 0 msgX 0).1
      = some (msgX.set "host" "x") ∧
    reports (logger.Log ⟨failingEncoder, [addHost], InfoLevel⟩ ErrorLevel msgX 0).trace =
      [diagnostic ⟨"sink unavailable"⟩] ∧
    reports (logger.Log ⟨okEncoder, [addHost], InfoLevel⟩ ErrorLevel msgX 0).trace = [] ∧
    diagnostic ⟨"sink unavailable"⟩ = "Error writing to log: sink unavailable\n" :=
  ⟨by decide,
    ((C4_encoder_failure_reported ⟨failingEncoder, [addHost], InfoLevel⟩ ErrorLevel msgX 0
      (msgX.set "host" "x") (by decide)).1 ⟨"sink unavailable"⟩ (by decide)).2.1,
    (C4_encoder_failure_reported ⟨okEncoder, [addHost], InfoLevel⟩ ErrorLevel msgX 0
      (msgX.set "host" "x") (by decide)).2 (by decide),
    by decide⟩

/-- C5: empty filter chain.  With no filter configured, for every encoder, threshold,
level, program state and payload (the nil map included), `Log` calls the encoder exactly
once, on the payload it was given, and calls nothing else. -/
theorem C5_empty_chain (enc : Encoder S V) (thr lvl : Level) (d : Data V) (s : S) :
    encodes (logger.Log ⟨enc, [], thr⟩ lvl d s).trace = [d] ∧
    calls (logger.Log ⟨enc, [], thr⟩ lvl d s).trace = [Event.encode d] ∧
    encodes (logger.Log ⟨enc, [], thr⟩ lvl Data.nil s).trace = [Data.nil] := by
  have key : ∀ d1 : Data V,
      encodes (logger.Log ⟨enc, [], thr⟩ lvl d1 s).trace = [d1] ∧
      calls (logger.Log ⟨enc, [], thr⟩ lvl d1 s).trace = [Event.encode d1] := by
    intro d1
    obtain ⟨rest, htr, hrest⟩ :=
      Log_trace_of_some ⟨enc, [], thr⟩ lvl d1 s d1 (rangeFilters_nil lvl thr 0 d1 s ▸ rfl)
    rw [htr]
    rcases hrest with rfl | ⟨err, rfl⟩ <;> exact ⟨rfl, rfl⟩
  exact ⟨(key d).1, (key d).2, (key Data.nil).1⟩

/-- C6: drop has no effect of `Log` itself.  When the loop of a call of `Log` executes
`return` (the chain yields drop), `Log` ends there: its outcome is the unchanged logger
with the state and the trace the loop left, and that trace holds no encoder call and no
diagnostic. -/
theorem C6_drop_no_effect (lg : logger S V) (lvl : Level) (d : Data V) (s : S)
    (hdrop : (logger.rangeFilters lvl lg.threshold lg.filters 0 d s).1 = none) :
    lg.Log lvl d s =
      ⟨lg, (logger.rangeFilters lvl lg.threshold lg.filters 0 d s).2.1,
        (logger.rangeFilters lvl lg.threshold lg.filters 0 d s).2.2⟩ ∧
    encodes (lg.Log lvl d s).trace = [] ∧
    reports (lg.Log lvl d s).trace = [] := by
  have hL := Log_of_drop lg lvl d s hdrop
  refine ⟨hL, ?_, ?_⟩
  · rw [hL]; exact rangeFilters_encodes _ _ _ _ _ _
  · rw [hL]; exact rangeFilters_reports _ _ _ _ _ _

/-- Witness of C6: `dropAll` in front of an encoder that would fail. -/
theorem C6_drop_no_effect_witness :
    (logger.rangeFilters ErrorLevel InfoLevel [addHost, dropAll] 0 msgX 0).1 = none ∧
    logger.Log ⟨failingEncoder, [addHost, dropAll], InfoLevel⟩ ErrorLevel msgX 0 =
      ⟨⟨failingEncoder, [addHost, dropAll], InfoLevel⟩,
        (logger.rangeFilters ErrorLevel InfoLevel [addHost, dropAll] 0 msgX 0).2.1,
        (logger.rangeFilters ErrorLevel InfoLevel [addHost, dropAll] 0 msgX 0).2.2⟩ ∧
    encodes (logger.Log ⟨failingEncoder, [addHost, dropAll], InfoLevel⟩
      ErrorLevel msgX 0).trace = [] ∧
    reports (logger.Log ⟨failingEncoder, [addHost, dropAll], InfoLevel⟩
      ErrorLevel msgX 0).trace = [] :=
  ⟨by decide,
    C6_drop_no_effect ⟨failingEncoder, [addHost, dropAll], InfoLevel⟩ ErrorLevel msgX 0
      (by decide)⟩

/-- C7: at most one encoder invocation, no retry.  Every call of `Log` calls the encoder
at most once; when the loop runs to its end and the encoder returns an error, the encoder
has been called exactly once in that call. -/
theorem C7_at_most_one_encode (lg : logger S V) (lvl : Level) (d : Data V) (s : S) :
    (encodes (lg.Log lvl d s).trace).length ≤ 1 ∧
    (∀ x err, (logger.rangeFilters lvl lg.threshold lg.filters 0 d s).1 = some x →
      (lg.encoder.Encode x
        (logger.rangeFilters lvl lg.threshold lg.filters 0 d s).2.1).1 = some err →
      encodes (lg.Log lvl d s).trace = [x]) := by
  have henc := rangeFilters_encodes lvl lg.threshold lg.filters 0 d s
  have hsome : ∀ x, (logger.rangeFilters lvl lg.threshold lg.filters 0 d s).1 = some x →
      encodes (lg.Log lvl d s).trace = [x] := by
    intro x hx
    obtain ⟨rest, htr, hrest⟩ := Log_trace_of_some lg lvl d s x hx
    rw [htr]
    unfold encodes at henc ⊢
    rw [List.filterMap_append, List.filterMap_append, henc]
    rcases hrest with rfl | ⟨err, rfl⟩ <;> rfl
  constructor
  · cases hR : (logger.rangeFilters lvl lg.threshold lg.filters 0 d s).1 with
    | none => rw [Log_of_drop lg lvl d s hR, henc]; simp
    | some x => rw [hsome x hR]; simp
  · intro x err hx _
    exact hsome x hx

/-- Witness of C7: a failing encoder behind `addHost` is called once. -/
theorem C7_at_most_one_encode_witness :
    (logger.rangeFilters ErrorLevel InfoLevel [addHost] 0 msgX 0).1
      = some (msgX.set "host" "x") ∧
    (failingEncoder.Encode (msgX.set "host" "x")
      (logger.rangeFilters ErrorLevel InfoLevel [addHost] 0 msgX 0).2.1).1
      = some ⟨"sink unavailable"⟩ ∧
    encodes (logger.Log ⟨failingEncoder, [addHost], InfoLevel⟩ ErrorLevel msgX 0).trace =
      [msgX.set "host" "x"] :=
  ⟨by decide, by decide,
    (C7_at_most_one_encode ⟨failingEncoder, [addHost], InfoLevel⟩ ErrorLevel msgX 0).2
      (msgX.set "host" "x") ⟨"sink unavailable"⟩ (by decide) (by decide)⟩

/-- C8: severity order.  The four named levels have the values `FatalLevel = 0`,
`ErrorLevel = 1`, `InfoLevel = 2`, `TraceLevel = 3`, so `FatalLevel` is more severe than
`ErrorLevel`, that than `InfoLevel`, that than `TraceLevel`, and no named level has a
value above `TraceLevel`.  On the named levels "more severe than" is irreflexive and
transitive, any two distinct named levels are comparable, and the four names denote four
different values. -/
theorem C8_severity_order :
    (FatalLevel = 0 ∧ ErrorLevel = 1 ∧ InfoLevel = 2 ∧ TraceLevel = 3) ∧
    (moreSevere FatalLevel ErrorLevel ∧ moreSevere ErrorLevel InfoLevel ∧
      moreSevere InfoLevel TraceLevel) ∧
    (∀ a ∈ namedLevels, a ≤ TraceLevel) ∧
    (∀ a ∈ namedLevels, ¬ moreSevere a a) ∧
    (∀ a ∈ namedLevels, ∀ b ∈ namedLevels, ∀ c ∈ namedLevels,
      moreSevere a b → moreSevere b c → moreSevere a c) ∧
    (∀ a ∈ namedLevels, ∀ b ∈ namedLevels, a ≠ b → moreSevere a b ∨ moreSevere b a) ∧
    namedLevels.Nodup := by
  refine ⟨⟨rfl, rfl, rfl, rfl⟩, ⟨by decide, by decide, by decide⟩, by decide, ?_, ?_, ?_,
    by decide⟩
  · intro a _; exact lt_irrefl a
  · intro a _ b _ c _ hab hbc; exact lt_trans hab hbc
  · intro a _ b _ hne; exact lt_or_gt_of_ne hne

/-- Witness of C8: `ErrorLevel` and `TraceLevel` are distinct named levels, hence
comparable, and the order passes from `FatalLevel` through `InfoLevel` to `TraceLevel`. -/
theorem C8_severity_order_witness :
    (moreSevere ErrorLevel TraceLevel ∨ moreSevere TraceLevel ErrorLevel) ∧
    moreSevere FatalLevel TraceLevel ∧
    ¬ moreSevere InfoLevel InfoLevel :=
  ⟨C8_severity_order.2.2.2.2.2.1 ErrorLevel (by decide) TraceLevel (by decide) (by decide),
    C8_severity_order.2.2.2.2.1 FatalLevel (by decide) InfoLevel (by decide) TraceLevel
      (by decide) (by decide) (by decide),
    C8_severity_order.2.2.2.1 InfoLevel (by decide)⟩

/-- C9: no memory between calls.  Take a logger whose filters are pure and call `Log`
twice in a row with the same level and payload, the second call on the logger and program
state the first one left.  Each call leaves the logger (encoder, filter chain, threshold)
as it was; the second call makes the same filter and encoder calls, with the same
arguments and results of the filters, as the first; and when the chain does not drop, the
encoder is called in both calls, each time on the same payload. -/
theorem C9_no_memory (lg : logger S V) (lvl : Level) (d : Data V) (s : S)
    (hpure : ∀ fn ∈ lg.filters, Filter.IsPure fn) :
    (lg.Log lvl d s).lg = lg ∧
    ((lg.Log lvl d s).lg.Log lvl d (lg.Log lvl d s).state).lg = lg ∧
    calls ((lg.Log lvl d s).lg.Log lvl d (lg.Log lvl d s).state).trace =
      calls (lg.Log lvl d s).trace ∧
    encodes ((lg.Log lvl d s).lg.Log lvl d (lg.Log lvl d s).state).trace =
      encodes (lg.Log lvl d s).trace ∧
    (∀ x, (logger.rangeFilters lvl lg.threshold lg.filters 0 d s).1 = some x →
      encodes ((lg.Log lvl d s).trace ++
        ((lg.Log lvl d s).lg.Log lvl d (lg.Log lvl d s).state).trace) = [x, x]) := by
  have hlg := Log_lg lg lvl d s
  rw [hlg]
  obtain ⟨h1, h2⟩ := (rangeFilters_pure lvl lg.threshold lg.filters hpure 0 d s).2
    (lg.Log lvl d s).state
  refine ⟨rfl, Log_lg lg lvl d _, ?_⟩
  cases hR : (logger.rangeFilters lvl lg.threshold lg.filters 0 d s).1 with
  | none =>
    rw [hR] at h1
    have e1 : (lg.Log lvl d s).trace =
        (logger.rangeFilters lvl lg.threshold lg.filters 0 d s).2.2 := by
      rw [Log_of_drop lg lvl d s hR]
    have e2 : (lg.Log lvl d (lg.Log lvl d s).state).trace =
        (logger.rangeFilters lvl lg.threshold lg.filters 0 d s).2.2 := by
      rw [Log_of_drop lg lvl d _ h1]; exact h2
    refine ⟨by rw [e2, e1], by rw [e2, e1], ?_⟩
    intro x hx; cases hx
  | some x =>
    rw [hR] at h1
    have c1 := Log_calls_of_some lg lvl d s x hR
    have c2 := Log_calls_of_some lg lvl d _ x h1
    have n1 := Log_encodes_of_some lg lvl d s x hR
    have n2 := Log_encodes_of_some lg lvl d _ x h1
    refine ⟨by rw [c2, c1, h2], by rw [n2, n1], ?_⟩
    intro y hy
    cases hy
    unfold encodes at n1 n2 ⊢
    rw [List.filterMap_append, n1, n2]
    rfl

/-- Witness of C9: `addHost` in front of an encoder that succeeds on its first call and
fails afterwards.  The second call reports a failure the first did not, yet it makes the
same calls, the encoder call included. -/
theorem C9_no_memory_witness :
    (∀ fn ∈ [addHost], Filter.IsPure fn) ∧
    encodes ((logger.Log ⟨onceEncoder, [addHost], InfoLevel⟩ ErrorLevel msgX 0).trace ++
      ((logger.Log ⟨onceEncoder, [addHost], InfoLevel⟩ ErrorLevel msgX 0).lg.Log ErrorLevel msgX
        (logger.Log ⟨onceEncoder, [addHost], InfoLevel⟩ ErrorLevel msgX 0).state).trace) =
      [msgX.set "host" "x", msgX.set "host" "x"] ∧
    reports (logger.Log ⟨onceEncoder, [addHost], InfoLevel⟩ ErrorLevel msgX 0).trace = [] ∧
    reports ((logger.Log ⟨onceEncoder, [addHost], InfoLevel⟩ ErrorLevel msgX 0).lg.Log
        ErrorLevel msgX
        (logger.Log ⟨onceEncoder, [addHost], InfoLevel⟩ ErrorLevel msgX 0).state).trace =
      [diagnostic ⟨"sink closed"⟩] :=
  ⟨fun fn hfn => by
      simp only [List.mem_singleton] at hfn
      subst hfn
      exact ⟨fun _ _ d =>
        if d.isNil then (Data.empty : Data String).set "host" "x" else d.set "host" "x",
        fun _ _ _ _ => rfl⟩,
    (C9_no_memory ⟨onceEncoder, [addHost], InfoLevel⟩ ErrorLevel msgX 0
      (fun fn hfn => by
        simp only [List.mem_singleton] at hfn
        subst hfn
        exact ⟨fun _ _ d =>
          if d.isNil then (Data.empty : Data String).set "host" "x" else d.set "host" "x",
          fun _ _ _ _ => rfl⟩)).2.2.2.2 (msgX.set "host" "x") (by decide),
    by decide, by decide⟩

/-- C10, counterexample: in the chain `[clearAll, addHost]` the first filter returns the
non-nil map without keys.  The event is not dropped: the filter at index 1 is called on
that map and the encoder is called. -/
theorem C10_counterexample :
    Event.filter 0 ErrorLevel InfoLevel msgX Data.empty ∈
      (logger.Log ⟨okEncoder, [clearAll, addHost], InfoLevel⟩ ErrorLevel msgX 0).trace ∧
    (Data.empty : Data String) = some ∅ ∧
    (logger.Log ⟨okEncoder, [clearAll, addHost], InfoLevel⟩ ErrorLevel msgX 0).trace =
      [Event.filter 0 ErrorLevel InfoLevel msgX Data.empty,
       Event.filter 1 ErrorLevel InfoLevel Data.empty
         ((Data.empty : Data String).set "host" "x"),
       Event.encode ((Data.empty : Data String).set "host" "x")] ∧
    encodes (logger.Log ⟨okEncoder, [clearAll], InfoLevel⟩ ErrorLevel msgX 0).trace =
      [Data.empty] := by
  decide

/-- C10, amended: the nil map means drop, the map without keys does not.  If a filter
called by `Log` returns the nil map, the event is dropped: the encoder is not called and
no filter further down the chain is called.  If a filter returns any other map `b`, the
non-nil map without keys included, the event goes on: the next action of `Log` is the
call of the next filter of the chain, or after the last filter the call of the encoder,
and it receives `b`. -/
theorem C10_nil_means_drop (lg : logger S V) (lvl : Level) (d : Data V) (s : S) :
    (∀ (i : Nat) (l t : Level) (a : Data V),
      Event.filter i l t a Data.nil ∈ (lg.Log lvl d s).trace →
      encodes (lg.Log lvl d s).trace = [] ∧
      ∀ e ∈ (lg.Log lvl d s).trace, ∀ j, e.filterPos = some j → j ≤ i) ∧
    (∀ (i : Nat) (l t : Level) (a b : Data V),
      Event.filter i l t a b ∈ (lg.Log lvl d s).trace → b ≠ Data.nil →
      ∃ e1, (lg.Log lvl d s).trace[i + 1]? = some e1 ∧ e1.input = some b ∧
        (e1.filterPos = some (i + 1) ∨ e1 = Event.encode b)) := by
  constructor
  · intro i l t a hmem
    exact Log_after_drop lg lvl d s i l t a hmem
  · intro i l t a b hmem hb
    have hi := Log_filter_event lg lvl d s i l t a b hmem
    obtain ⟨rest, htr, _, hnone, hsome⟩ := Log_trace_split lg lvl d s
    rcases rangeFilters_next lvl lg.threshold lg.filters 0 d s i _ b hi rfl hb with
      ⟨e1, h1, h2⟩ | ⟨hlen, hx⟩
    · obtain ⟨_, a1, b1, hab⟩ :=
        rangeFilters_get lvl lg.threshold lg.filters 0 d s (i + 1) e1 h1
      have hlt : i + 1 < (logger.rangeFilters lvl lg.threshold lg.filters 0 d s).2.2.length := by
        by_contra hc
        rw [List.getElem?_eq_none (by omega)] at h1
        cases h1
      refine ⟨e1, ?_, h2, Or.inl ?_⟩
      · rw [htr, List.getElem?_append_left hlt]; exact h1
      · rw [hab]; simp [Event.filterPos]
    · refine ⟨Event.encode b, ?_, rfl, Or.inr rfl⟩
      rw [htr, ← hlen, List.getElem?_append_right (le_refl _)]
      simpa using hsome b hx

/-- Witness of C10: in `[addHost, dropAll, addHost]` the filter at index 1 returns the nil
map and nothing is called after it; in `[clearAll, addHost]` the filter at index 0
returns the map without keys and the filter at index 1 receives it. -/
theorem C10_nil_means_drop_witness :
    (Event.filter 1 ErrorLevel InfoLevel (msgX.set "host" "x") Data.nil ∈
        (logger.Log ⟨okEncoder, [addHost, dropAll, addHost], InfoLevel⟩
          ErrorLevel msgX 0).trace ∧
      encodes (logger.Log ⟨okEncoder, [addHost, dropAll, addHost], InfoLevel⟩
          ErrorLevel msgX 0).trace = []) ∧
    (Event.filter 0 ErrorLevel InfoLevel msgX Data.empty ∈
        (logger.Log ⟨okEncoder, [clearAll, addHost], InfoLevel⟩ ErrorLevel msgX 0).trace ∧
      (Data.empty : Data String) ≠ Data.nil ∧
      ∃ e1, (logger.Log ⟨okEncoder, [clearAll, addHost], InfoLevel⟩
          ErrorLevel msgX 0).trace[0 + 1]? = some e1 ∧
        e1.input = some Data.empty ∧
        (e1.filterPos = some (0 + 1) ∨ e1 = Event.encode Data.empty)) :=
  ⟨⟨by decide,
      ((C10_nil_means_drop ⟨okEncoder, [addHost, dropAll, addHost], InfoLevel⟩
        ErrorLevel msgX 0).1 1 ErrorLevel InfoLevel (msgX.set "host" "x") (by decide)).1⟩,
    by decide, by decide,
    (C10_nil_means_drop ⟨okEncoder, [clearAll, addHost], InfoLevel⟩ ErrorLevel msgX 0).2
      0 ErrorLevel InfoLevel msgX Data.empty (by decide) (by decide)⟩

/-- C11: filter invocation order and arguments.  In every call of `Log` the filters called
are those at the indices `0, 1, ..., k - 1` of the chain for some `k` up to its length,
called in that order and each once.  Every filter call recorded at index `p` is a call
of the filter at index `p` of the chain, with the level given to `Log` as first argument
and the threshold of the logger as second, and records what that filter returned. -/
theorem C11_filter_order (lg : logger S V) (lvl : Level) (d : Data V) (s : S) :
    (∃ k, k ≤ lg.filters.length ∧
      filterPositions (lg.Log lvl d s).trace = List.range k) ∧
    (∀ (p : Nat) (l t : Level) (a b : Data V),
      Event.filter p l t a b ∈ (lg.Log lvl d s).trace →
      l = lvl ∧ t = lg.threshold ∧
      ∃ fn w, lg.filters[p]? = some fn ∧ b = (fn lvl lg.threshold a w).1) := by
  constructor
  · obtain ⟨rest, htr, hrest, _, _⟩ := Log_trace_split lg lvl d s
    refine ⟨(logger.rangeFilters lvl lg.threshold lg.filters 0 d s).2.2.length,
      rangeFilters_length_le lvl lg.threshold lg.filters 0 d s, ?_⟩
    have hpos := rangeFilters_positions lvl lg.threshold lg.filters 0 d s
    have hr : filterPositions rest = [] := by
      unfold filterPositions
      rw [List.filterMap_eq_nil_iff]
      exact hrest
    rw [htr]
    unfold filterPositions at hpos hr ⊢
    rw [List.filterMap_append, hpos, hr, List.append_nil, List.range_eq_range']
  · intro p l t a b hmem
    have hp := Log_filter_event lg lvl d s p l t a b hmem
    obtain ⟨fn, a1, w, hfn, hev⟩ :=
      rangeFilters_sound lvl lg.threshold lg.filters 0 d s p _ hp
    injection hev with _ hl ht ha hb
    subst ha
    exact ⟨hl, ht, fn, w, hfn, hb⟩

/-- Witness of C11: in `[addHost, dropAll, addHost]` the calls are those of the filters at
indices 0 and 1, in that order, with level `ErrorLevel` and threshold `InfoLevel`. -/
theorem C11_filter_order_witness :
    filterPositions (logger.Log ⟨okEncoder, [addHost, dropAll, addHost], InfoLevel⟩
      ErrorLevel msgX 0).trace = [0, 1] ∧
    Event.filter 1 ErrorLevel InfoLevel (msgX.set "host" "x") Data.nil ∈
      (logger.Log ⟨okEncoder, [addHost, dropAll, addHost], InfoLevel⟩
        ErrorLevel msgX 0).trace ∧
    (ErrorLevel = ErrorLevel ∧ InfoLevel = InfoLevel ∧
      ∃ fn w, [addHost, dropAll, addHost][1]? = some fn ∧
        Data.nil = (fn ErrorLevel InfoLevel (msgX.set "host" "x") w).1) :=
  ⟨by decide, by decide,
    (C11_filter_order ⟨okEncoder, [addHost, dropAll, addHost], InfoLevel⟩ ErrorLevel msgX 0).2
      1 ErrorLevel InfoLevel (msgX.set "host" "x") Data.nil (by decide)⟩

/-- C12: the level reaches `Log` only through the filters.  For a logger whose filters
ignore their level argument, two calls of `Log` from the same program state with the same
payload and any two levels call the encoder alike (not at all, or once on the same
payload), write the same diagnostics and leave the same program state.  In particular a
call at `FatalLevel` whose encoder returns an error returns like a call at any other
level, with exactly one diagnostic, the one for that error. -/
theorem C12_level_only_through_filters (lg : logger S V) (d : Data V) (s : S)
    (hign : ∀ fn ∈ lg.filters, Filter.IgnoresLevel fn) (L1 L2 : Level) :
    encodes (lg.Log L1 d s).trace = encodes (lg.Log L2 d s).trace ∧
    reports (lg.Log L1 d s).trace = reports (lg.Log L2 d s).trace ∧
    (lg.Log L1 d s).state = (lg.Log L2 d s).state ∧
    (∀ x err, (logger.rangeFilters FatalLevel lg.threshold lg.filters 0 d s).1 = some x →
      (lg.encoder.Encode x
        (logger.rangeFilters FatalLevel lg.threshold lg.filters 0 d s).2.1).1 = some err →
      reports (lg.Log FatalLevel d s).trace = [diagnostic err] ∧
      reports (lg.Log L2 d s).trace = [diagnostic err] ∧
      (lg.Log FatalLevel d s).lg = lg) := by
  have key : ∀ A B : Level,
      encodes (lg.Log A d s).trace = encodes (lg.Log B d s).trace ∧
      reports (lg.Log A d s).trace = reports (lg.Log B d s).trace ∧
      (lg.Log A d s).state = (lg.Log B d s).state := by
    intro A B
    obtain ⟨hr, hs⟩ := rangeFilters_level A B lg.threshold lg.filters hign 0 d s
    cases hB : (logger.rangeFilters B lg.threshold lg.filters 0 d s).1 with
    | none =>
      have hA : (logger.rangeFilters A lg.threshold lg.filters 0 d s).1 = none := by
        rw [hr, hB]
      refine ⟨?_, ?_, ?_⟩
      · rw [Log_of_drop lg A d s hA, Log_of_drop lg B d s hB]
        simp only
        rw [rangeFilters_encodes, rangeFilters_encodes]
      · rw [(Log_reports lg A d s).1 hA, (Log_reports lg B d s).1 hB]
      · rw [(Log_state lg A d s).1 hA, (Log_state lg B d s).1 hB, hs]
    | some x =>
      have hA : (logger.rangeFilters A lg.threshold lg.filters 0 d s).1 = some x := by
        rw [hr, hB]
      refine ⟨?_, ?_, ?_⟩
      · rw [Log_encodes_of_some lg A d s x hA, Log_encodes_of_some lg B d s x hB]
      · cases he : (lg.encoder.Encode x
            (logger.rangeFilters B lg.threshold lg.filters 0 d s).2.1).1 with
        | none =>
          rw [(Log_reports lg A d s).2.1 x hA (by rw [hs]; exact he),
            (Log_reports lg B d s).2.1 x hB he]
        | some err =>
          rw [(Log_reports lg A d s).2.2 x err hA (by rw [hs]; exact he),
            (Log_reports lg B d s).2.2 x err hB he]
      · rw [(Log_state lg A d s).2 x hA, (Log_state lg B d s).2 x hB, hs]
  refine ⟨(key L1 L2).1, (key L1 L2).2.1, (key L1 L2).2.2, ?_⟩
  intro x err hx he
  have hF := (Log_reports lg FatalLevel d s).2.2 x err hx he
  exact ⟨hF, by rw [← (key FatalLevel L2).2.1]; exact hF, Log_lg lg FatalLevel d s⟩

/-- Witness of C12: `dropDebug` ignores the level; with a failing encoder behind it, the
calls at `FatalLevel` and at `TraceLevel` both call the encoder on the payload and both
write the one diagnostic. -/
theorem C12_level_only_through_filters_witness :
    (∀ fn ∈ [dropDebug], Filter.IgnoresLevel fn) ∧
    (encodes (logger.Log ⟨failingEncoder, [dropDebug], InfoLevel⟩ FatalLevel msgX 0).trace =
        encodes (logger.Log ⟨failingEncoder, [dropDebug], InfoLevel⟩ TraceLevel msgX 0).trace ∧
      reports (logger.Log ⟨failingEncoder, [dropDebug], InfoLevel⟩ FatalLevel msgX 0).trace =
        reports (logger.Log ⟨failingEncoder, [dropDebug], InfoLevel⟩ TraceLevel msgX 0).trace ∧
      (logger.Log ⟨failingEncoder, [dropDebug], InfoLevel⟩ FatalLevel msgX 0).state =
        (logger.Log ⟨failingEncoder, [dropDebug], InfoLevel⟩ TraceLevel msgX 0).state) ∧
    reports (logger.Log ⟨failingEncoder, [dropDebug], InfoLevel⟩ FatalLevel msgX 0).trace =
      [diagnostic ⟨"sink unavailable"⟩] ∧
    encodes (logger.Log ⟨failingEncoder, [dropDebug], InfoLevel⟩ TraceLevel msgX 0).trace =
      [msgX] :=
  ⟨fun fn hfn => by
      simp only [List.mem_singleton] at hfn
      subst hfn
      exact fun _ _ _ _ _ => rfl,
    ⟨(C12_level_only_through_filters ⟨failingEncoder, [dropDebug], InfoLevel⟩ msgX 0
        (fun fn hfn => by
          simp only [List.mem_singleton] at hfn
          subst hfn
          exact fun _ _ _ _ _ => rfl) FatalLevel TraceLevel).1,
      (C12_level_only_through_filters ⟨failingEncoder, [dropDebug], InfoLevel⟩ msgX 0
        (fun fn hfn => by
          simp only [List.mem_singleton] at hfn
          subst hfn
          exact fun _ _ _ _ _ => rfl) FatalLevel TraceLevel).2.1,
      (C12_level_only_through_filters ⟨failingEncoder, [dropDebug], InfoLevel⟩ msgX 0
        (fun fn hfn => by
          simp only [List.mem_singleton] at hfn
          subst hfn
          exact fun _ _ _ _ _ => rfl) FatalLevel TraceLevel).2.2.1⟩,
    by decide, by decide⟩

/-- C13: pass-through filters are not neutral on the nil payload.  For a logger whose chain
is not empty and holds only filters that return their payload unchanged: `Log(lvl, nil)`
does not call the encoder, since the nil map the first filter returns is taken as drop,
and the first filter is the only one called; for every payload `d` other than the nil
map, the non-nil map without keys included, `Log(lvl, d)` calls the encoder exactly
once, on `d`.  With an empty chain `Log(lvl, nil)` does call the encoder, on the nil
map. -/
theorem C13_passThrough_nil (lg : logger S V) (lvl : Level) (s : S)
    (hne : lg.filters ≠ [])
    (hpass : ∀ fn ∈ lg.filters, Filter.IsPassThrough fn) :
    (encodes (lg.Log lvl Data.nil s).trace = [] ∧
      (lg.Log lvl Data.nil s).trace =
        [Event.filter 0 lvl lg.threshold Data.nil Data.nil]) ∧
    (∀ d : Data V, d ≠ Data.nil → encodes (lg.Log lvl d s).trace = [d]) ∧
    encodes (lg.Log lvl Data.empty s).trace = [Data.empty] ∧
    (∀ (enc : Encoder S V) (thr : Level),
      encodes (logger.Log ⟨enc, [], thr⟩ lvl Data.nil s).trace = [Data.nil]) := by
  have hsome : ∀ d : Data V, d ≠ Data.nil → encodes (lg.Log lvl d s).trace = [d] := by
    intro d hd
    exact Log_encodes_of_some lg lvl d s d
      (rangeFilters_passThrough lvl lg.threshold lg.filters hpass 0 d s hd)
  refine ⟨?_, hsome, hsome Data.empty (by simp [Data.empty, Data.nil]), ?_⟩
  · cases hfs : lg.filters with
    | nil => exact absurd hfs hne
    | cons fn rest =>
      have hfn : (fn lvl lg.threshold Data.nil s).1 = Data.nil :=
        hpass fn (by rw [hfs]; exact List.mem_cons_self _ _) lvl lg.threshold Data.nil s
      have hn : (fn lvl lg.threshold Data.nil s).1.isNil = true := (isNil_iff _).2 hfn
      have hR : logger.rangeFilters lvl lg.threshold lg.filters 0 Data.nil s =
          (none, (fn lvl lg.threshold Data.nil s).2,
            [Event.filter 0 lvl lg.threshold Data.nil Data.nil]) := by
        rw [hfs, rangeFilters_cons_drop lvl lg.threshold fn rest 0 Data.nil s hn, hfn]
      have hL := Log_of_drop lg lvl Data.nil s (by rw [hR])
      rw [hL, hR]
      exact ⟨rfl, rfl⟩
  · intro enc thr
    exact Log_encodes_of_some ⟨enc, [], thr⟩ lvl Data.nil s Data.nil
      (rangeFilters_nil lvl thr 0 Data.nil s ▸ rfl)

/-- Witness of C13: the chain `[passThrough, passThrough]`.  The nil payload is dropped at
the first filter, `{"msg": "x"}` and the map without keys reach the encoder, and with
no filter the nil payload reaches the encoder. -/
theorem C13_passThrough_nil_witness :
    ([passThrough, passThrough] ≠ []) ∧
    (∀ fn ∈ [passThrough, passThrough], Filter.IsPassThrough fn) ∧
    encodes (logger.Log ⟨okEncoder, [passThrough, passThrough], InfoLevel⟩
      ErrorLevel Data.nil 0).trace = [] ∧
    (msgX ≠ Data.nil ∧
      encodes (logger.Log ⟨okEncoder, [passThrough, passThrough], InfoLevel⟩
        ErrorLevel msgX 0).trace = [msgX]) ∧
    encodes (logger.Log ⟨okEncoder, [passThrough, passThrough], InfoLevel⟩
      ErrorLevel Data.empty 0).trace = [Data.empty] ∧
    encodes (logger.Log ⟨okEncoder, [], InfoLevel⟩ ErrorLevel Data.nil 0).trace =
      [Data.nil] :=
  ⟨by simp,
    fun fn hfn => by
      simp only [List.mem_cons, List.mem_singleton, List.not_mem_nil, or_false, or_self] at hfn
      subst hfn
      exact fun _ _ _ _ => rfl,
    (C13_passThrough_nil ⟨okEncoder, [passThrough, passThrough], InfoLevel⟩ ErrorLevel 0
      (by simp)
      (fun fn hfn => by
        simp only [List.mem_cons, List.mem_singleton, List.not_mem_nil, or_false,
          or_self] at hfn
        subst hfn
        exact fun _ _ _ _ => rfl)).1.1,
    ⟨by decide,
      (C13_passThrough_nil ⟨okEncoder, [passThrough, passThrough], InfoLevel⟩ ErrorLevel 0
        (by simp)
        (fun fn hfn => by
          simp only [List.mem_cons, List.mem_singleton, List.not_mem_nil, or_false,
            or_self] at hfn
          subst hfn
          exact fun _ _ _ _ => rfl)).2.1 msgX (by decide)⟩,
    by decide, by decide⟩

end Claims

end GoLog
